import Mathlib

/-!
Verification development for the storage-engine core of the cmu15-445 repository
(B+Tree pages and index, extendible hash table, LRU replacer, buffer pool).

Shallow embedding conventions:
- Keys, values and page ids are modelled as Nat (the concrete instantiations use
  integer keys via GenericKey.SetFromInteger, RID values and int page ids;
  the comparator is the integer order, and std::hash on int is the identity).
- The in-page entry array of a node is modelled as a total function
  arr : Nat -> Nat x Nat together with a size field.  Slots at or beyond size
  hold stale bytes, exactly as the bytes of a freshly fetched frame do;
  reading such a slot is well defined in the model and returns the stale pair.
- memcpy and memmove over the entry array are modelled by memmoveFn, which
  copies a block of n entries from offset src to offset dst as if through a
  snapshot, which is the guarantee memmove gives.
-/

set_option linter.unusedVariables false

/-- Semantics of memmove over an entry array modelled as a total function:
the n slots starting at dst receive the n slots starting at src, read from a
snapshot of the array; every other slot is unchanged. -/
def memmoveFn (arr : Nat → α) (dst src n : Nat) : Nat → α :=
  fun i => if dst ≤ i ∧ i < dst + n then arr (src + (i - dst)) else arr i

/-- Embedding of the file-local BinarySearch helper that appears identically in
b_plus_tree_leaf_page.cpp (lines 57-80) and b_plus_tree_internal_page.cpp
(lines 57-80): start = 1, end = size - 1; while start < end the probe middle
moves start up past smaller keys and end down onto not-smaller keys, and an
exact match sets start = middle and breaks; the function returns start.  Note
that the search interval starts at index 1, so index 0 is never returned, and
the returned index is not checked against the key.  keyAt i is array[i].first.
The size_t subtraction size - 1 matches C++ for size >= 1, the only sizes the
callers reach with defined behaviour. -/
def binSearchLoop (keyAt : Nat → Nat) (key : Nat) : Nat → Nat → Nat → Nat
  | 0, start, _ => start
  | fuel + 1, start, e =>
    if start < e then
      let middle := start + (e - start) / 2
      if keyAt middle < key then binSearchLoop keyAt key fuel (middle + 1) e
      else if key < keyAt middle then binSearchLoop keyAt key fuel start middle
      else middle
    else start

/-- Entry into the loop: each iteration shrinks e - start by at least one, so
e - start rounds of fuel are exactly enough; when the fuel hits zero the loop
condition start < e is already false and returning start coincides with the
loop exit. -/
def binSearchGE (keyAt : Nat → Nat) (key : Nat) (start e : Nat) : Nat :=
  binSearchLoop keyAt key (e - start) start e

/-- The wrapper BinarySearch(array, size, key, cmp) as called by the leaf and
internal page code: search interval is [1, size - 1]. -/
def binarySearch (keyAt : Nat → Nat) (size : Nat) (key : Nat) : Nat :=
  binSearchGE keyAt key 1 (size - 1)

/-- Model of BPlusTreeLeafPage: entry array (key, value record id), current
size, max size and the next-leaf page id (INVALID_PAGE_ID modelled as none). -/
structure LeafPage where
  arr : Nat → Nat × Nat
  size : Nat
  maxSize : Nat
  nextPageId : Option Nat

/-- The visible entries of a leaf, i.e. slots 0 .. size-1 of the array. -/
def LeafPage.entries (l : LeafPage) : List (Nat × Nat) :=
  (List.range l.size).map l.arr

/-- BPlusTreeLeafPage::Init (b_plus_tree_leaf_page.cpp lines 24-34) on a page
whose frame holds stale bytes: size 0, next page id INVALID, array untouched. -/
def leafInit (stale : Nat → Nat × Nat) (maxSize : Nat) : LeafPage :=
  { arr := stale, size := 0, maxSize := maxSize, nextPageId := none }

/-- BPlusTreeLeafPage::Lookup (b_plus_tree_leaf_page.cpp lines 179-188):
index = BinarySearch(array, size, key); if index == -1 return false, else
value = array[index].second and return true.  BinarySearch returns a start
value that is never -1, so the guard never fires. -/
def LeafPage.lookup (l : LeafPage) (key : Nat) : Option Nat :=
  let index := binarySearch (fun i => (l.arr i).1) l.size key
  if (index : Int) = -1 then none else some (l.arr index).2

/-- BPlusTreeLeafPage::Insert (b_plus_tree_leaf_page.cpp lines 121-140).
Three cases on the insert position: append at the end when the page is empty
or key is greater than the last key; prepend after shifting right when key is
below the first key; otherwise position KeyIndex(key) after the statement
memmove(array + insert_index, array + insert_index + 1, (size - insert_index)
 * sizeof(MappingType)), which copies the block starting at insert_index + 1
one slot to the left (the overwrite direction), as written in the source.
Returns size + 1 and the updated page. -/
def LeafPage.insert (l : LeafPage) (key value : Nat) : Nat × LeafPage :=
  let size := l.size
  let pair := (key, value)
  let (insertIndex, arr1) :=
    if size = 0 ∨ (l.arr (size - 1)).1 < key then
      (size, l.arr)
    else if key < (l.arr 0).1 then
      (0, memmoveFn l.arr 1 0 size)
    else
      let ii := binarySearch (fun i => (l.arr i).1) size key
      (ii, memmoveFn l.arr ii (ii + 1) (size - ii))
  let arr2 := fun i => if i = insertIndex then pair else arr1 i
  (size + 1, { l with arr := arr2, size := size + 1 })

/-- BPlusTreeLeafPage::RemoveAndDeleteRecord (b_plus_tree_leaf_page.cpp lines
200-209): index = BinarySearch; if index != -1 then
memmove(array + index + 1, array + index, (size - index - 1) * sizeof(...)),
which copies the block starting at index one slot to the right, and the size
decreases by one; the function returns the size read before the deletion. -/
def LeafPage.removeAndDeleteRecord (l : LeafPage) (key : Nat) : Nat × LeafPage :=
  let size := l.size
  let index := binarySearch (fun i => (l.arr i).1) size key
  if (index : Int) ≠ -1 then
    (size, { l with arr := memmoveFn l.arr (index + 1) index (size - index - 1),
                    size := size - 1 })
  else (size, l)

/-- BPlusTreeLeafPage::CopyAllFrom (b_plus_tree_leaf_page.cpp lines 229-234),
executed by the recipient with items pointing at the source node array:
memcpy(items, array + current_size, size * sizeof(MappingType)) copies
current_size .. current_size + size - 1 of the recipient array over the first
size slots of the source node array, then the recipient size grows by size.
Result: (source node array after the memcpy, recipient after IncreaseSize). -/
def LeafPage.copyAllFrom (recipient : LeafPage) (items : Nat → Nat × Nat)
    (size : Nat) : (Nat → Nat × Nat) × LeafPage :=
  let items1 := fun i => if i < size then recipient.arr (recipient.size + i) else items i
  (items1, { recipient with size := recipient.size + size })

/-- BPlusTreeLeafPage::MoveAllTo (b_plus_tree_leaf_page.cpp lines 219-226):
recipient.CopyAllFrom(array, size); recipient.SetNextPageId(GetNextPageId());
IncreaseSize(-size).  Returns (node after, recipient after). -/
def LeafPage.moveAllTo (node recipient : LeafPage) : LeafPage × LeafPage :=
  let size := node.size
  let (items1, recipient1) := recipient.copyAllFrom node.arr size
  let recipient2 := { recipient1 with nextPageId := node.nextPageId }
  ({ node with arr := items1, size := 0 }, recipient2)

/-- Modelled from the spec: GetMinSize is declared in
include/page/b_plus_tree_page.h, whose implementation is not under src/.
Per spec section 4.4 it is the ceiling of max size over two.  It only gates
the call to the CoalesceOrRedistribute stub, which never mutates the tree. -/
def LeafPage.minSize (l : LeafPage) : Nat := (l.maxSize + 1) / 2

/-- BPlusTree::CoalesceOrRedistribute (b_plus_tree.cpp lines 250-253) is a
stub in the source: it returns false and performs no mutation. -/
def coalesceOrRedistribute (l : LeafPage) : LeafPage × Bool := (l, false)

/-- A B+Tree whose root page is a leaf page (the shape reached after inserts
into an empty tree that never overflow the root leaf); none models
root_page_id_ == INVALID_PAGE_ID.  FindLeafPage (b_plus_tree.cpp lines
356-377) on this shape fetches the root, skips the descent loop because the
root is a leaf, and returns it still pinned. -/
def SingleLeafTree := Option LeafPage

/-- BPlusTree::Insert via StartNewTree (b_plus_tree.cpp lines 70-99) on an
empty tree: NewPage yields a frame with stale bytes, Init, then
leaf Insert(key, value); the root page id now refers to this leaf. -/
def btreeInsertEmpty (stale : Nat → Nat × Nat) (maxSize key value : Nat) :
    SingleLeafTree :=
  some (leafInit stale maxSize |>.insert key value).2

/-- BPlusTree::GetValue (b_plus_tree.cpp lines 41-57) on a single-leaf tree:
FetchPage(root_page_id_) (the result of this first fetch is only cast and
never used or unpinned), FindLeafPage returns the root leaf, leaf Lookup; on
a hit the value is appended to the result vector, on a miss the function
returns false with an empty result. -/
def btreeGetValue (t : SingleLeafTree) (key : Nat) : List Nat :=
  match t with
  | none => []
  | some leaf =>
    match leaf.lookup key with
    | some v => [v]
    | none => []

/-- BPlusTree::Remove (b_plus_tree.cpp lines 226-240) on a single-leaf tree:
if the tree is empty return; FindLeafPage; if the leaf size is below min size
call the CoalesceOrRedistribute stub.  No statement of the function deletes
the record: RemoveAndDeleteRecord is never called. -/
def btreeRemove (t : SingleLeafTree) (key : Nat) : SingleLeafTree :=
  match t with
  | none => none
  | some leaf =>
    if leaf.size < leaf.minSize then some (coalesceOrRedistribute leaf).1
    else some leaf

/-- A concrete stale frame content used as failing input: every slot of the
freshly allocated page holds the stale pair (0, 99). -/
def staleFrame : Nat → Nat × Nat := fun _ => (0, 99)

/-- A concrete three-entry leaf with entries (1,10), (2,20), (3,30) and stale
slots (0,99) beyond, used as failing input for the remove claims. -/
def leaf123 : LeafPage :=
  { arr := fun i => if i = 0 then (1, 10) else if i = 1 then (2, 20)
           else if i = 2 then (3, 30) else (0, 99),
    size := 3, maxSize := 32, nextPageId := none }

/-- A concrete non-empty recipient leaf: one entry (5,50), stale slots (9,99)
beyond, next page id 7. -/
def leafRecipient : LeafPage :=
  { arr := fun i => if i = 0 then (5, 50) else (9, 99),
    size := 1, maxSize := 32, nextPageId := some 7 }

/-- Model of BPlusTreeInternalPage: entry array of (key, child page id) pairs
and current size; slot 0 key is the invalid first key. -/
structure InternalPage where
  arr : Nat → Nat × Nat
  size : Nat
  maxSize : Nat

/-- The visible entries of an internal node, slots 0 .. size-1. -/
def InternalPage.entries (n : InternalPage) : List (Nat × Nat) :=
  (List.range n.size).map n.arr

/-- BPlusTreeInternalPage::Lookup (b_plus_tree_internal_page.cpp lines
126-149): left = 1, right = size - 1; keys below array[left].first give
array[left-1].second, keys above array[right].first give array[right].second,
and otherwise index = BinarySearch(array, size, key) and the result is
array[index - 1].second. -/
def InternalPage.lookup (n : InternalPage) (key : Nat) : Nat :=
  let size := n.size
  let left := 1
  let right := size - 1
  if key < (n.arr left).1 then (n.arr (left - 1)).2
  else if (n.arr right).1 < key then (n.arr right).2
  else
    let index := binarySearch (fun i => (n.arr i).1) size key
    (n.arr (index - 1)).2

/-- BPlusTreeInternalPage::ValueIndex (b_plus_tree_internal_page.cpp lines
83-105): int binary search over the stored child page ids with start = 0,
end = size - 1; probes exceed or undershoot the sought value to narrow the
interval, an exact probe breaks; returns middle if start <= end still holds
at exit (the break case) and -1 otherwise.  Indices are int, so end can
reach -1; the model uses Int indices accordingly. -/
def valueIndexLoop (valAt : Nat → Nat) (value : Nat) : Nat → Int → Int → Int
  | 0, _, _ => -1
  | fuel + 1, start, e =>
    if start ≤ e then
      if value < valAt (start + (e - start) / 2).toNat then
        valueIndexLoop valAt value fuel start (start + (e - start) / 2 - 1)
      else if valAt (start + (e - start) / 2).toNat < value then
        valueIndexLoop valAt value fuel (start + (e - start) / 2 + 1) e
      else start + (e - start) / 2
    else -1

/-- ValueIndex entry point: start = 0, end = GetSize() - 1.  Each iteration
shrinks e + 1 - start by at least one, so size rounds of fuel are exactly
enough; at fuel zero the loop condition start <= e is already false and
returning -1 coincides with the loop exit. -/
def InternalPage.valueIndex (n : InternalPage) (value : Nat) : Int :=
  valueIndexLoop (fun i => (n.arr i).2) value n.size 0 ((n.size : Int) - 1)

/-- BPlusTreeInternalPage::InsertNodeAfter (b_plus_tree_internal_page.cpp
lines 179-196): old_index = ValueIndex(old_value); then
memmove(array + old_index + 2, array + old_index + 1,
(size - old_index - 1) * sizeof(MappingType)) opens a gap after old_index
(no statement of the function stores the new pair); size grows by one and
size + 1 is returned. -/
def InternalPage.insertNodeAfter (n : InternalPage) (oldValue newKey newValue : Nat) :
    Nat × InternalPage :=
  let size := n.size
  let oldIndex := n.valueIndex oldValue
  let dst := oldIndex + 2
  let src := oldIndex + 1
  let cnt := (size : Int) - src
  let arr1 := memmoveFn n.arr dst.toNat src.toNat cnt.toNat
  (size + 1, { n with arr := arr1, size := size + 1 })

/-- A concrete internal node with entries (0,100), (5,101), (10,102): keys 5
and 10 strictly increase, children are page ids 100, 101, 102. -/
def internal3 : InternalPage :=
  { arr := fun i => if i = 0 then (0, 100) else if i = 1 then (5, 101)
           else if i = 2 then (10, 102) else (0, 0),
    size := 3, maxSize := 32 }

/-- A concrete internal node whose child page ids are not sorted:
entries (0,5), (7,3), (9,9): children are 5, 3, 9. -/
def internalUnsorted : InternalPage :=
  { arr := fun i => if i = 0 then (0, 5) else if i = 1 then (7, 3)
           else if i = 2 then (9, 9) else (0, 0),
    size := 3, maxSize := 32 }

/-- A buffer pool call performed by a tree operation: FetchPage or UnpinPage
of a page id.  NewPage does not occur on the GetValue paths modelled here. -/
inductive PoolOp where
  | fetch (pid : Nat)
  | unpin (pid : Nat)
deriving DecidableEq, Repr

/-- The descent loop of BPlusTree::FindLeafPage (b_plus_tree.cpp lines
364-374): while the current page is internal, pick the child, unpin the
current page, fetch the child.  path lists the page ids visited after the
root; the last element of root :: path is the leaf, which stays pinned. -/
def descendOps : Nat → List Nat → List PoolOp
  | _, [] => []
  | cur, c :: cs => .unpin cur :: .fetch c :: descendOps c cs

/-- BPlusTree::FindLeafPage (b_plus_tree.cpp lines 356-377): fetch the root,
then run the descent loop; the leaf is returned still pinned. -/
def findLeafPageOps (root : Nat) (path : List Nat) : List PoolOp :=
  .fetch root :: descendOps root path

/-- The page id of the leaf FindLeafPage returns. -/
def leafIdOf (root : Nat) (path : List Nat) : Nat :=
  (root :: path).getLast (by simp)

/-- The buffer pool calls of BPlusTree::GetValue (b_plus_tree.cpp lines
41-57) on a tree with the given root and descent path: line 45 fetches the
root page (this pointer is cast and never used again, and never unpinned),
FindLeafPage runs, and only on a Lookup hit is the leaf unpinned (line 55);
the miss path returns false without unpinning (line 53). -/
def getValueOps (root : Nat) (path : List Nat) (hit : Bool) : List PoolOp :=
  .fetch root :: (findLeafPageOps root path ++
    if hit then [.unpin (leafIdOf root path)] else [])

/-- Net pin-count change for a page id over a sequence of pool calls:
fetches add one, unpins subtract one.  The claim that every FetchPage is
matched by exactly one UnpinPage says this is 0 for every page id. -/
def netPins (ops : List PoolOp) (pid : Nat) : Int :=
  ops.foldl (fun acc op =>
    match op with
    | .fetch q => if q = pid then acc + 1 else acc
    | .unpin q => if q = pid then acc - 1 else acc) 0

/-- LRUReplacer::Insert (lru_replacer.cpp lines 17-26): push the value at the
front of the list and remove the previously linked occurrence if the value
was already present.  The state is the list, most recent first. -/
def lruInsert (l : List Nat) (v : Nat) : List Nat := v :: l.erase v

/-- The replacer state after a sequence of Inserts starting empty. -/
def lruState (ks : List Nat) : List Nat := ks.foldl lruInsert []

/-- LRUReplacer::Victim (lru_replacer.cpp lines 31-41): on a non-empty list
remove and return the back element; on an empty list report failure. -/
def lruVictim (l : List Nat) : Option (Nat × List Nat) :=
  match l.getLast? with
  | none => none
  | some v => some (v, l.dropLast)

/-- Repeatedly call Victim until it fails, collecting the returned elements;
the fuel argument bounds the recursion by the list length. -/
def lruDrainAux : Nat → List Nat → List Nat
  | 0, _ => []
  | n + 1, l =>
    match lruVictim l with
    | none => []
    | some (v, r) => v :: lruDrainAux n r

/-- The full victim sequence of a replacer state. -/
def lruDrain (l : List Nat) : List Nat := lruDrainAux l.length l

/-- Stated from the spec wording of the claim: the elements of a sequence in
order of their last occurrence (least recently inserted first), i.e. the
subsequence keeping only the final occurrence of each element.  This is the
specification-side description the drain sequence is compared against. -/
def keepLast : List Nat → List Nat
  | [] => []
  | x :: xs => if x ∈ xs then keepLast xs else x :: keepLast xs

/-- std::hash on int keys is the identity (libstdc++), as the spec scenarios
assume. -/
def hashKey (k : Nat) : Nat := k

/-- SETBIT(x, y) = x | (1 << y) (extendible_hash.h line 24). -/
def setbit (x y : Nat) : Nat := x ||| 2 ^ y

/-- GETBIT(x, y) = x & ~(0xFFFFFFFF << (y+1)) (extendible_hash.h line 26):
the mask keeps the low y + 1 bits (for y + 1 < 32, the defined range). -/
def getbitLow (x y : Nat) : Nat := x % 2 ^ (y + 1)

/-- ISZERO(x, y) tests whether bit y of x is zero (extendible_hash.h
line 28). -/
def iszero (x y : Nat) : Bool := x / 2 ^ y % 2 = 0

/-- Lookup in the std::map of a bucket: does a key occur. -/
def mapContains (d : List (Nat × Nat)) (k : Nat) : Bool :=
  d.any (fun kv => kv.1 = k)

/-- std::map::insert semantics (Bucket::Put line 42): the pair is inserted
only if the key is absent; an existing key keeps its old value. -/
def mapInsert (d : List (Nat × Nat)) (k v : Nat) : List (Nat × Nat) :=
  if mapContains d k then d else d ++ [(k, v)]

/-- std::map::find followed by reading the mapped value (Bucket::Get). -/
def mapGet (d : List (Nat × Nat)) (k : Nat) : Option Nat :=
  (d.find? (fun kv => kv.1 = k)).map (fun kv => kv.2)

/-- Model of a Bucket (extendible_hash.h lines 35-113): directory id pattern,
local depth, fixed capacity (size_), and the std::map contents as a list of
distinct-key pairs. -/
structure BucketM where
  id : Nat
  depth : Nat
  cap : Nat
  data : List (Nat × Nat)
deriving DecidableEq, Repr

/-- Bucket::Put (extendible_hash.h lines 41-50): always performs the map
insert, then reports false exactly when the map size equals size_ after the
insert. -/
def bucketPut (b : BucketM) (k v : Nat) : BucketM × Bool :=
  let d1 := mapInsert b.data k v
  if d1.length = b.cap then ({ b with data := d1 }, false)
  else ({ b with data := d1 }, true)

/-- Bucket::Get (extendible_hash.h lines 52-62). -/
def bucketGet (b : BucketM) (k : Nat) : Option Nat := mapGet b.data k

/-- Bucket::Remove (extendible_hash.h lines 64-71). -/
def bucketRemove (b : BucketM) (k : Nat) : BucketM × Bool :=
  if mapContains b.data k then
    ({ b with data := b.data.eraseP (fun kv => decide (kv.1 = k)) }, true)
  else (b, false)

/-- Bucket::Split (extendible_hash.h lines 84-97): increment the local depth
to L, create a sibling with id SETBIT(id, L) and empty map, move every entry
whose hash has bit L set into the sibling via Put (whose capacity report is
ignored), keep the others.  Returns (this bucket after, new sibling). -/
def bucketSplit (b : BucketM) : BucketM × BucketM :=
  let L := b.depth + 1
  let stay := b.data.filter (fun kv => iszero (hashKey kv.1) L)
  let moved := b.data.filter (fun kv => !iszero (hashKey kv.1) L)
  let nb : BucketM :=
    { id := setbit b.id L, depth := L, cap := b.cap,
      data := moved.foldl (fun d kv => mapInsert d kv.1 kv.2) [] }
  ({ b with depth := L, data := stay }, nb)

/-- Model of ExtendibleHash: bucket capacity (bucket_size_), global depth,
a store of bucket objects (the shared_ptr heap) and the directory as a list
of store indices; none models a null shared_ptr slot. -/
structure EHash where
  cap : Nat
  G : Nat
  store : List BucketM
  dir : List (Option Nat)
deriving DecidableEq, Repr

/-- ExtendibleHash constructor (extendible_hash.cpp lines 13-19): global
depth 0, directory resized to 1 << (0 + 1) = 2 slots, each holding a fresh
bucket with id i, depth 0 and capacity size. -/
def ehInit (size : Nat) : EHash :=
  { cap := size, G := 0,
    store := [{ id := 0, depth := 0, cap := size, data := [] },
              { id := 1, depth := 0, cap := size, data := [] }],
    dir := [some 0, some 1] }

/-- The directory slot consulted for a key: GETBIT(hash(key), global_depth_),
i.e. the low G + 1 bits of the hash (extendible_hash.cpp lines 66, 78, 93). -/
def ehSlot (s : EHash) (k : Nat) : Nat := getbitLow (hashKey k) s.G

/-- ExtendibleHash::Find (extendible_hash.cpp lines 62-68). -/
def ehFind (s : EHash) (k : Nat) : Option Nat :=
  match s.dir.getD (ehSlot s k) none with
  | none => none
  | some p =>
    match s.store.get? p with
    | none => none
    | some b => bucketGet b k

/-- ExtendibleHash::Remove (extendible_hash.cpp lines 74-80). -/
def ehRemove (s : EHash) (k : Nat) : EHash :=
  match s.dir.getD (ehSlot s k) none with
  | none => s
  | some p =>
    match s.store.get? p with
    | none => s
    | some b => { s with store := s.store.set p (bucketRemove b k).1 }

/-- std::vector::resize on the directory: truncate or pad with null. -/
def dirResize (dir : List (Option Nat)) (n : Nat) : List (Option Nat) :=
  dir.take n ++ List.replicate (n - dir.length) none

/-- One iteration of the aliasing loop in ExtendibleHash::expand
(extendible_hash.h lines 138-142), run after global_depth_ was incremented
to G: if directory slot i is null or its bucket's local depth is below G,
copy the reference into slot SETBIT(i, G). -/
def ehAliasStep (store : List BucketM) (G : Nat) (d : List (Option Nat))
    (i : Nat) : List (Option Nat) :=
  match d.getD i none with
  | none => d.set (setbit i G) none
  | some p =>
    match store.get? p with
    | some b => if b.depth < G then d.set (setbit i G) (some p) else d
    | none => d

/-- ExtendibleHash::expand (extendible_hash.h lines 134-143), called with
global_depth_ already incremented to the new value G: resize the directory
to 1 << (G + 1) slots, install the new bucket (store index pNew) at slot
newId, then run the aliasing loop over i in [0, 1 << G). -/
def ehExpand (s : EHash) (newId pNew : Nat) : EHash :=
  let d1 := dirResize s.dir (2 ^ (s.G + 1))
  let d2 := d1.set newId (some pNew)
  let d3 := (List.range (2 ^ s.G)).foldl (ehAliasStep s.store s.G) d2
  { s with dir := d3 }

/-- ExtendibleHash::Insert (extendible_hash.cpp lines 87-119).  Route to the
directory slot; a null slot gets a fresh depth-0 bucket holding the pair;
otherwise Put into the resident bucket; on overflow report, Split the bucket
(the overflowing pair is already inside), and either increment the global
depth and expand when the new local depth exceeds it, or install the sibling
at the single slot matching its id.  The key is never re-routed after the
split. -/
def ehInsert (s : EHash) (k v : Nat) : EHash :=
  let id := ehSlot s k
  match s.dir.getD id none with
  | none =>
    let nb : BucketM := { id := id, depth := 0, cap := s.cap,
                          data := mapInsert [] k v }
    { s with store := s.store ++ [nb],
             dir := s.dir.set id (some s.store.length) }
  | some p =>
    match s.store.get? p with
    | none => s
    | some b =>
      let pb := bucketPut b k v
      let store1 := s.store.set p pb.1
      if pb.2 then { s with store := store1 }
      else
        let sp := bucketSplit pb.1
        let pNew := store1.length
        let store2 := store1.set p sp.1 ++ [sp.2]
        if s.G < sp.1.depth then
          ehExpand { s with G := s.G + 1, store := store2 } sp.2.id pNew
        else
          { s with store := store2, dir := s.dir.set sp.2.id (some pNew) }

/-- The states of the extendible hash table reachable from the constructor by
sequences of public Insert and Remove calls (Find and the introspection
functions do not mutate). -/
inductive EHReachable : EHash → Prop where
  | init (size : Nat) : EHReachable (ehInit size)
  | insert {s : EHash} (k v : Nat) : EHReachable s → EHReachable (ehInsert s k v)
  | remove {s : EHash} (k : Nat) : EHReachable s → EHReachable (ehRemove s k)

/-- Fold a list of (key, value) pairs into the table by Insert. -/
def ehInsertSeq (s : EHash) (kvs : List (Nat × Nat)) : EHash :=
  kvs.foldl (fun t kv => ehInsert t kv.1 kv.2) s

/-- The spec scenario state: bucket size 2, inserts (0,10),(1,11),(2,12),(4,14). -/
def ehSeq4 : EHash := ehInsertSeq (ehInit 2) [(0, 10), (1, 11), (2, 12), (4, 14)]

/-- ehSeq4 followed by inserting (3,13). -/
def ehSeq5 : EHash := ehInsert ehSeq4 3 13

/-- ehSeq5 followed by inserting (7,17). -/
def ehSeq6 : EHash := ehInsert ehSeq5 7 17

/-- Bucket-size-2 table after inserting (0,10),(4,14),(8,18): keys that share
their low bits, so the split after (4,14) moves nothing out. -/
def ehSeq3 : EHash := ehInsertSeq (ehInit 2) [(0, 10), (4, 14), (8, 18)]

/-! ## Theorems -/

/-- C1: the claim says that after a successful Insert(k, v) into the tree,
GetValue(k) returns exactly the singleton of v.  On the code this fails at
the very first insert: inserting (1, 10) into an empty tree stores the pair
at slot 0 of the new root leaf, but leaf Lookup runs BinarySearch with
start = 1, which on a size-1 page returns index 1 without comparing keys, so
GetValue reports a hit with the stale slot-1 value 99 instead of 10. -/
theorem c1_getValue_after_insert_returns_stale_slot :
    (btreeInsertEmpty staleFrame 32 1 10).map LeafPage.entries = some [(1, 10)]
    ∧ btreeGetValue (btreeInsertEmpty staleFrame 32 1 10) 1 = [99]
    ∧ ([99] : List Nat) ≠ [10] := by
  refine ⟨by decide, by decide, by decide⟩

/-- C2: the claim says Remove(k) descends to the leaf and calls
RemoveAndDeleteRecord, which deletes k and returns the size after deletion.
On the code, BPlusTree::Remove never calls RemoveAndDeleteRecord (it only
finds the leaf and possibly calls the CoalesceOrRedistribute stub), so the
tree is unchanged and GetValue is unaffected; and RemoveAndDeleteRecord
itself shifts the block right instead of left (memmove destination and
source are swapped), so on the leaf (1,10),(2,20),(3,30) removing key 2
leaves entries (1,10),(2,20) - key 2 survives, key 3 is lost - and the
function returns the pre-deletion size 3, not the post-deletion size 2. -/
theorem c2_remove_never_deletes :
    btreeRemove (some leaf123) 2 = some leaf123
    ∧ btreeGetValue (btreeRemove (some leaf123) 2) 2 = btreeGetValue (some leaf123) 2
    ∧ (leaf123.removeAndDeleteRecord 2).1 = 3
    ∧ (leaf123.removeAndDeleteRecord 2).2.size = 2
    ∧ (leaf123.removeAndDeleteRecord 2).2.entries = [(1, 10), (2, 20)]
    ∧ ((2 : Nat), (20 : Nat)) ∈ (leaf123.removeAndDeleteRecord 2).2.entries
    ∧ (3 : Nat) ≠ 2 := by
  refine ⟨rfl, rfl, by decide, by decide, by decide, by decide, by decide⟩

/-- C5: the claim says internal Lookup(k) returns the child at the rightmost
index i with key_i less than or equal to k, including when k equals a stored
key.  On the node with entries (invalid,100),(5,101),(10,102) the
non-boundary probes 4, 7, 11 give 100, 101, 102 as the claim says, but the
exact matches diverge: Lookup(5) gives child 100 and Lookup(10) gives child
101, while the rightmost index with key at most 5 (resp. 10) is the slot
holding child 101 (resp. 102); the middle branch returns
array[index - 1].second after BinarySearch lands exactly on the key. -/
theorem c5_internal_lookup_boundary_off_by_one :
    internal3.lookup 4 = 100 ∧ internal3.lookup 7 = 101 ∧ internal3.lookup 11 = 102
    ∧ internal3.lookup 5 = 100 ∧ internal3.lookup 10 = 101
    ∧ (100 : Nat) ≠ 101 ∧ (101 : Nat) ≠ 102 := by
  decide

/-- C6: the claim says MoveAllTo appends all of the node's entries to the
recipient.  In the code, CopyAllFrom's memcpy has destination and source
swapped, so the recipient's entry slots are never written: moving the leaf
(1,10),(2,20),(3,30) onto the recipient holding (5,50) (stale slots (9,99))
leaves the recipient's entries as (5,50) followed by three stale pairs
rather than the appended entries.  The size and next-page-id parts of the
claim do hold: the node ends at size 0, the recipient at the sum, and the
recipient inherits the node's former next page id. -/
theorem c6_moveAllTo_does_not_append :
    (LeafPage.moveAllTo leaf123 leafRecipient).2.entries
      = [(5, 50), (9, 99), (9, 99), (9, 99)]
    ∧ (LeafPage.moveAllTo leaf123 leafRecipient).2.entries
      ≠ [(5, 50), (1, 10), (2, 20), (3, 30)]
    ∧ (LeafPage.moveAllTo leaf123 leafRecipient).1.size = 0
    ∧ (LeafPage.moveAllTo leaf123 leafRecipient).2.size
      = leaf123.size + leafRecipient.size
    ∧ (LeafPage.moveAllTo leaf123 leafRecipient).2.nextPageId
      = leaf123.nextPageId := by
  decide

/-- C7: the claim says every successful FetchPage/NewPage during GetValue,
Insert or Remove is matched by exactly one UnpinPage on every exit.  For
GetValue on a tree whose root is the leaf with page id 7, the code performs
the stray fetch of the root at line 45 (never unpinned) plus the fetch
inside FindLeafPage, and unpins at most once (zero times on the key-miss
exit): the net pin count of page 7 is 1 on the hit exit and 2 on the miss
exit, never the 0 the claim requires. -/
theorem c7_getValue_pin_leak :
    netPins (getValueOps 7 [] true) 7 = 1
    ∧ netPins (getValueOps 7 [] false) 7 = 2
    ∧ ((1 : Int) ≠ 0 ∧ (2 : Int) ≠ 0) := by
  decide

theorem lruState_concat (ks : List Nat) (k : Nat) :
    lruState (ks ++ [k]) = lruInsert (lruState ks) k := by
  simp [lruState, List.foldl_append]

theorem lruState_nodup (ks : List Nat) : (lruState ks).Nodup := by
  induction ks using List.reverseRecOn with
  | nil => simp [lruState]
  | append_singleton ks k ih =>
    rw [lruState_concat]
    refine List.Nodup.cons ?_ (ih.erase k)
    intro hmem
    exact ((ih.mem_erase_iff).mp hmem).1 rfl

theorem lruVictim_concat (l : List Nat) (k : Nat) :
    lruVictim (l ++ [k]) = some (k, l) := by
  simp [lruVictim, List.getLast?_concat, List.dropLast_concat]

theorem lruDrainAux_eq_reverse (n : Nat) :
    ∀ l : List Nat, l.length ≤ n → lruDrainAux n l = l.reverse := by
  induction n with
  | zero =>
    intro l hl
    rw [List.length_eq_zero.mp (Nat.le_zero.mp hl)]
    rfl
  | succ n ih =>
    intro l hl
    rcases l.eq_nil_or_concat with rfl | ⟨L, b, rfl⟩
    · rfl
    · rw [List.concat_eq_append] at hl ⊢
      rw [lruDrainAux, lruVictim_concat]
      simp only [List.length_append, List.length_singleton] at hl
      show b :: lruDrainAux n L = (L ++ [b]).reverse
      rw [ih L (by omega)]
      simp

theorem lruDrain_eq_reverse (l : List Nat) : lruDrain l = l.reverse :=
  lruDrainAux_eq_reverse l.length l le_rfl

theorem keepLast_subset {l : List Nat} {a : Nat} (h : a ∈ keepLast l) : a ∈ l := by
  induction l with
  | nil => exact absurd h (by simp [keepLast])
  | cons x xs ih =>
    rw [keepLast] at h
    by_cases hx : x ∈ xs
    · rw [if_pos hx] at h
      exact List.mem_cons_of_mem x (ih h)
    · rw [if_neg hx] at h
      rcases List.mem_cons.mp h with rfl | h2
      · exact List.mem_cons_self a xs
      · exact List.mem_cons_of_mem x (ih h2)

theorem keepLast_concat (ks : List Nat) (k : Nat) :
    keepLast (ks ++ [k]) = (keepLast ks).erase k ++ [k] := by
  induction ks with
  | nil => rfl
  | cons x ks ih =>
    rw [List.cons_append, keepLast, keepLast]
    by_cases hx : x ∈ ks
    · rw [if_pos (by simp [hx]), if_pos hx, ih]
    · by_cases hxk : x = k
      · subst hxk
        rw [if_pos (by simp), ih, if_neg hx, List.erase_cons_head]
        have : x ∉ keepLast ks := fun hc => hx (keepLast_subset hc)
        rw [List.erase_of_not_mem this]
      · rw [if_neg (by simp [hx, hxk]), if_neg hx, ih,
            List.erase_cons_tail (by simp [hxk]), List.cons_append]

theorem erase_reverse_of_nodup {l : List Nat} (hl : l.Nodup) (k : Nat) :
    (l.erase k).reverse = l.reverse.erase k := by
  rw [hl.erase_eq_filter, (List.nodup_reverse.mpr hl).erase_eq_filter,
      List.filter_reverse]

theorem lruState_reverse_eq_keepLast (ks : List Nat) :
    (lruState ks).reverse = keepLast ks := by
  induction ks using List.reverseRecOn with
  | nil => rfl
  | append_singleton ks k ih =>
    rw [lruState_concat, keepLast_concat, ← ih, lruInsert, List.reverse_cons,
        erase_reverse_of_nodup (lruState_nodup ks)]

/-- C8: the LRU replacer's Victim returns elements in exact order of their
last Insert and fails exactly on the empty replacer.  First conjunct: for
every sequence of Inserts starting from an empty replacer, draining by
repeated Victim calls yields precisely the inserted elements in order of
their last insertion, least recently inserted first (keepLast).  Second
conjunct: Victim fails if and only if the replacer is empty.  Third
conjunct: the concrete scenario Insert 1,2,3; Victim gives 1; Insert 2;
Victim gives 3, then 2, then fails. -/
theorem c8_lru_victim_order :
    (∀ ks : List Nat, lruDrain (lruState ks) = keepLast ks)
    ∧ (∀ l : List Nat, lruVictim l = none ↔ l = [])
    ∧ (lruState [1, 2, 3] = [3, 2, 1]
       ∧ lruVictim [3, 2, 1] = some (1, [3, 2])
       ∧ lruInsert [3, 2] 2 = [2, 3]
       ∧ lruVictim [2, 3] = some (3, [2])
       ∧ lruVictim [2] = some (2, [])
       ∧ lruVictim ([] : List Nat) = none) := by
  refine ⟨?_, ?_, by decide⟩
  · intro ks
    rw [lruDrain_eq_reverse, lruState_reverse_eq_keepLast]
  · intro l
    constructor
    · intro h
      rcases l.eq_nil_or_concat with rfl | ⟨L, b, rfl⟩
      · rfl
      · rw [List.concat_eq_append, lruVictim_concat] at h
        exact absurd h (by simp)
    · intro h
      subst h
      rfl

theorem dirResize_length (d : List (Option Nat)) (n : Nat) :
    (dirResize d n).length = n := by
  simp only [dirResize, List.length_append, List.length_take, List.length_replicate]
  omega

theorem ehAliasStep_length (st : List BucketM) (G : Nat) (d : List (Option Nat))
    (i : Nat) : (ehAliasStep st G d i).length = d.length := by
  unfold ehAliasStep
  split
  · simp
  · split
    · split <;> simp
    · rfl

theorem aliasFold_length (st : List BucketM) (G : Nat) :
    ∀ (L : List Nat) (d : List (Option Nat)),
      (L.foldl (ehAliasStep st G) d).length = d.length := by
  intro L
  induction L with
  | nil => intro d; rfl
  | cons i L ih =>
    intro d
    rw [List.foldl_cons, ih, ehAliasStep_length]

theorem ehExpand_dir_length (s : EHash) (newId pNew : Nat) :
    (ehExpand s newId pNew).dir.length = 2 ^ (s.G + 1)
    ∧ (ehExpand s newId pNew).G = s.G := by
  refine ⟨?_, rfl⟩
  show ((List.range (2 ^ s.G)).foldl (ehAliasStep s.store s.G)
        ((dirResize s.dir (2 ^ (s.G + 1))).set newId (some pNew))).length = 2 ^ (s.G + 1)
  rw [aliasFold_length, List.length_set, dirResize_length]

theorem ehRemove_dir_G (s : EHash) (k : Nat) :
    (ehRemove s k).dir = s.dir ∧ (ehRemove s k).G = s.G := by
  unfold ehRemove
  split
  · exact ⟨rfl, rfl⟩
  · split
    · exact ⟨rfl, rfl⟩
    · exact ⟨rfl, rfl⟩

theorem ehInsert_dir_length (s : EHash) (k v : Nat)
    (h : s.dir.length = 2 ^ (s.G + 1)) :
    (ehInsert s k v).dir.length = 2 ^ ((ehInsert s k v).G + 1) := by
  cases hd : s.dir.getD (ehSlot s k) none with
  | none =>
    simp only [ehInsert, hd]
    simpa [List.length_set] using h
  | some p =>
    cases hb : s.store.get? p with
    | none =>
      simp only [ehInsert, hd, hb]
      exact h
    | some b =>
      cases hok : (bucketPut b k v).2 with
      | true =>
        simp only [ehInsert, hd, hb, hok, if_true]
        exact h
      | false =>
        by_cases hg : s.G < (bucketSplit (bucketPut b k v).1).1.depth
        · simp only [ehInsert, hd, hb, hok, Bool.false_eq_true, if_false, if_pos hg]
          rw [(ehExpand_dir_length _ _ _).2, (ehExpand_dir_length _ _ _).1]
        · simp only [ehInsert, hd, hb, hok, Bool.false_eq_true, if_false, if_neg hg]
          simpa [List.length_set] using h

/-- C3 counterexample: the claim as stated is false on the code.  The freshly
constructed table (a reachable state) has global depth 0 but a directory of
2 slots, not 2 to the power 0 = 1.  Moreover, after the reachable insert
sequence (0,10),(1,11),(2,12),(4,14),(3,13),(7,17) with bucket size 2, the
directory state has global depth 2 while the slot consulted for key 4 is
4 % 8 = 4, not the low-G-bits value 4 % 4 = 0; and the bucket at store
index 5, installed in directory slot 5, has local depth 2 and id 5 yet
contains key 7, whose low 2 hash bits 7 % 4 = 3 differ from the bucket's
5 % 4 = 1, so the per-bucket low-L-bit agreement also fails. -/
theorem c3_counterexample_directory_size :
    ((ehInit 2).G = 0 ∧ (ehInit 2).dir.length = 2 ∧ (2 : Nat) ≠ 2 ^ 0)
    ∧ (ehSeq4.G = 2 ∧ ehSlot ehSeq4 4 = 4 ∧ (4 : Nat) ≠ 4 % 2 ^ 2)
    ∧ (ehSeq6.dir.getD 5 none = some 5
       ∧ ehSeq6.store.get? 5 = some { id := 5, depth := 2, cap := 2, data := [(7, 17)] }
       ∧ 7 % 2 ^ 2 ≠ 5 % 2 ^ 2) := by
  decide

/-- C3 amended: for every reachable state of the extendible hash table the
directory has exactly 2 to the power (G + 1) slots (G the global depth), and
the slot consulted for a key is the low G + 1 bits of its hash: the
constructor sizes the directory as 1 << (G + 1) and GETBIT(hash, G) masks
y + 1 bits for y = G.  The per-bucket bit-agreement conjunct of the original
claim is dropped: the counterexample shows it fails in both the L and the
L + 1 reading. -/
theorem c3_amended_directory_size (s : EHash) (h : EHReachable s) (k : Nat) :
    s.dir.length = 2 ^ (s.G + 1) ∧ ehSlot s k = hashKey k % 2 ^ (s.G + 1) := by
  refine ⟨?_, rfl⟩
  induction h with
  | init n => rfl
  | insert k' v' hs ih => exact ehInsert_dir_length _ k' v' ih
  | remove k' hs ih =>
    rw [(ehRemove_dir_G _ k').1, (ehRemove_dir_G _ k').2]
    exact ih

/-- Witness for C3 amended at the reachable state ehSeq4 and key 4. -/
theorem c3_amended_directory_size_witness :
    ehSeq4.dir.length = 2 ^ (ehSeq4.G + 1)
    ∧ ehSlot ehSeq4 4 = hashKey 4 % 2 ^ (ehSeq4.G + 1) :=
  c3_amended_directory_size ehSeq4
    (EHReachable.insert 4 14 (EHReachable.insert 2 12 (EHReachable.insert 1 11
      (EHReachable.insert 0 10 (EHReachable.init 2))))) 4

/-- C4 counterexample: inserting (7,17) into the reachable bucket-size-2
state ehSeq5 (inserts (0,10),(1,11),(2,12),(4,14),(3,13)) makes Find(7) fail
immediately afterwards: the split of the depth-1 bucket holding keys 1 and 7
installs the new depth-2 sibling (id 5) only in directory slot 5, while key
7 routes to slot 7, which still references the old bucket, from which 7 was
moved away.  So the most recently inserted key is not findable. -/
theorem c4_counterexample_lost_key :
    ehSeq6 = ehInsert ehSeq5 7 17
    ∧ ehFind (ehInsert ehSeq5 7 17) 7 = none
    ∧ (none : Option Nat) ≠ some 17 := by
  refine ⟨rfl, by decide, by decide⟩

/-- C4 amended: the concrete scenario of the claim does hold: after inserting
(0,10),(1,11),(2,12),(4,14) into a fresh table with bucket size 2, the global
depth is 2 and find of 0, 2 and 4 (and of 1) each succeed with the associated
values. -/
theorem c4_amended_scenario :
    ehSeq4.G = 2
    ∧ ehFind ehSeq4 0 = some 10 ∧ ehFind ehSeq4 2 = some 12
    ∧ ehFind ehSeq4 4 = some 14 ∧ ehFind ehSeq4 1 = some 11 := by
  decide

/-- Keys inserted by Put are present afterwards. -/
theorem mapContains_mapInsert (d : List (Nat × Nat)) (k v : Nat) :
    mapContains (mapInsert d k v) k = true := by
  unfold mapInsert
  split
  · assumption
  · simp [mapContains, List.any_append]

/-- Put changes the entry count by one exactly when the key was absent. -/
theorem mapInsert_length (d : List (Nat × Nat)) (k v : Nat) :
    (mapInsert d k v).length
      = d.length + (if mapContains d k then 0 else 1) := by
  unfold mapInsert
  by_cases hc : mapContains d k
  · simp [hc]
  · simp [hc]

/-- C9 counterexample: Bucket::Put does not always store the pair (an
existing key keeps its old value: putting (0,99) into the capacity-2 bucket
holding (0,10) leaves the data unchanged and reports true), and a bucket is
not bounded by its capacity: in the reachable bucket-size-2 state after
inserting (0,10),(4,14),(8,18) the bucket in store slot 0 holds three
entries, one more than its capacity 2, because Put reports overflow only on
exact equality with the capacity. -/
theorem c9_counterexample_over_capacity :
    (bucketPut { id := 0, depth := 0, cap := 2, data := [(0, 10)] } 0 99).1.data
      = [(0, 10)]
    ∧ (bucketPut { id := 0, depth := 0, cap := 2, data := [(0, 10)] } 0 99).2 = true
    ∧ ehSeq3.store.get? 0
      = some { id := 0, depth := 1, cap := 2, data := [(0, 10), (4, 14), (8, 18)] }
    ∧ ¬ ([(0, 10), (4, 14), (8, 18)] : List (Nat × Nat)).length ≤ 2 := by
  decide

/-- C9 amended: Bucket::Put performs a map insert (the key is resident
afterwards; the entry count grows by one exactly when the key was absent, so
an existing key's value is never replaced and no capacity bound is enforced),
and it reports false exactly when the entry count equals the fixed capacity
after the operation - in particular the overflowing key is already resident
in the bucket before any split. -/
theorem c9_amended_put_semantics (b : BucketM) (k v : Nat) :
    ((bucketPut b k v).2 = false ↔ (bucketPut b k v).1.data.length = b.cap)
    ∧ mapContains (bucketPut b k v).1.data k = true
    ∧ (bucketPut b k v).1.data.length
      = b.data.length + (if mapContains b.data k then 0 else 1)
    ∧ (bucketPut b k v).1.id = b.id ∧ (bucketPut b k v).1.depth = b.depth
    ∧ (bucketPut b k v).1.cap = b.cap := by
  have hdata : (bucketPut b k v).1.data = mapInsert b.data k v := by
    by_cases hl : (mapInsert b.data k v).length = b.cap <;> simp [bucketPut, hl]
  have hproj : (bucketPut b k v).1.id = b.id ∧ (bucketPut b k v).1.depth = b.depth
      ∧ (bucketPut b k v).1.cap = b.cap := by
    by_cases hl : (mapInsert b.data k v).length = b.cap <;> simp [bucketPut, hl]
  have hret : ((bucketPut b k v).2 = false ↔ (mapInsert b.data k v).length = b.cap) := by
    by_cases hl : (mapInsert b.data k v).length = b.cap <;> simp [bucketPut, hl]
  refine ⟨?_, ?_, ?_, hproj.1, hproj.2.1, hproj.2.2⟩
  · rw [hdata]
    exact hret
  · rw [hdata]
    exact mapContains_mapInsert b.data k v
  · rw [hdata]
    exact mapInsert_length b.data k v

/-- Correctness of the ValueIndex loop under the sortedness precondition:
when the probed values are strictly increasing on [0, size) and the sought
value occurs at index j inside the live interval [start, e], the loop finds
exactly j.  Proved by induction on the fuel; the interval width e + 1 - start
shrinks by at least one per round. -/
theorem valueIndexLoop_finds (valAt : Nat → Nat) (size : Nat)
    (hmono : ∀ i j : Nat, i < j → j < size → valAt i < valAt j)
    (value : Nat) (j : Nat) (hj : j < size) (hv : valAt j = value) :
    ∀ (fuel : Nat) (start e : Int), 0 ≤ start → e ≤ (size : Int) - 1 →
      start ≤ (j : Int) → (j : Int) ≤ e → (e + 1 - start).toNat ≤ fuel →
      valueIndexLoop valAt value fuel start e = j := by
  intro fuel
  induction fuel with
  | zero =>
    intro start e h0 he hsj hje hf
    omega
  | succ fuel ih =>
    intro start e h0 he hsj hje hf
    have hse : start ≤ e := le_trans hsj hje
    have hdiv0 : (0 : Int) ≤ (e - start) / 2 := Int.ediv_nonneg (by omega) (by omega)
    have hdiv1 : (e - start) / 2 ≤ e - start := Int.ediv_le_self 2 (by omega)
    have hm1 : start ≤ start + (e - start) / 2 := by omega
    have hm2 : start + (e - start) / 2 ≤ e := by omega
    have hmsize : (start + (e - start) / 2).toNat < size := by omega
    rw [valueIndexLoop, if_pos hse]
    by_cases h1 : value < valAt (start + (e - start) / 2).toNat
    · rw [if_pos h1]
      have hjm : (j : Int) < start + (e - start) / 2 := by
        by_contra hcon
        push_neg at hcon
        have hmj : (start + (e - start) / 2).toNat ≤ j := by omega
        rcases Nat.lt_or_ge (start + (e - start) / 2).toNat j with hlt | hge
        · have := hmono (start + (e - start) / 2).toNat j hlt hj
          omega
        · have hjeq : (start + (e - start) / 2).toNat = j := by omega
          rw [hjeq, hv] at h1
          omega
      exact ih start (start + (e - start) / 2 - 1) h0 (by omega) hsj (by omega) (by omega)
    · rw [if_neg h1]
      by_cases h2 : valAt (start + (e - start) / 2).toNat < value
      · rw [if_pos h2]
        have hjm : start + (e - start) / 2 < (j : Int) := by
          by_contra hcon
          push_neg at hcon
          rcases Nat.lt_or_ge j (start + (e - start) / 2).toNat with hlt | hge
          · have := hmono j (start + (e - start) / 2).toNat hlt hmsize
            omega
          · have hjeq : j = (start + (e - start) / 2).toNat := by omega
            rw [hjeq] at hv
            omega
        exact ih (start + (e - start) / 2 + 1) e (by omega) he (by omega) hje (by omega)
      · rw [if_neg h2]
        have heq : valAt (start + (e - start) / 2).toNat = value := by omega
        rcases Nat.lt_trichotomy (start + (e - start) / 2).toNat j with hlt | heqj | hgt
        · have := hmono (start + (e - start) / 2).toNat j hlt hj
          omega
        · omega
        · have := hmono j (start + (e - start) / 2).toNat hgt hmsize
          omega

/-- C10: ValueIndex is a binary search over the stored child page ids, so it
locates a present child exactly when the child ids are in ascending order
across the node's slots (first conjunct, proved from the loop correctness
lemma); on a node whose child ids are not sorted, it can return -1 for a
child that is present (second group: the node with children 5, 3, 9 holds
child 5 at slot 0 yet ValueIndex gives -1); and the callers inherit the
precondition: InsertNodeAfter on that node with old child 5 computes
old_index = -1 and opens its gap at the front, duplicating slot 0, instead
of after the slot holding 5. -/
theorem c10_valueIndex_requires_sorted_children :
    (∀ (n : InternalPage) (v j : Nat),
        (∀ i i2 : Nat, i < i2 → i2 < n.size → (n.arr i).2 < (n.arr i2).2) →
        j < n.size → (n.arr j).2 = v →
        n.valueIndex v = j)
    ∧ (internalUnsorted.valueIndex 5 = -1
       ∧ (internalUnsorted.arr 0).2 = 5 ∧ (0 : Nat) < internalUnsorted.size)
    ∧ (internalUnsorted.insertNodeAfter 5 8 77).2.entries
      = [(0, 5), (0, 5), (7, 3), (9, 9)] := by
  refine ⟨?_, by decide, by decide⟩
  intro n v j hmono hj hv
  exact valueIndexLoop_finds (fun i => (n.arr i).2) n.size hmono v j hj hv
    n.size 0 ((n.size : Int) - 1) le_rfl (by omega) (by omega) (by omega) (by omega)

/-- Witness for C10 at the sorted node internal3 and child id 101 at slot 1. -/
theorem c10_valueIndex_requires_sorted_children_witness :
    internal3.valueIndex 101 = 1 :=
  c10_valueIndex_requires_sorted_children.1 internal3 101 1
    (by
      intro i i2 h1 h2
      have h2' : i2 < 3 := h2
      interval_cases i2 <;> interval_cases i <;> decide)
    (by decide) (by decide)
